import Mathlib

/-!
Verification of the BCI signal-processing core (C sources under src/):
radix-2 FFT engine and power-spectral-density estimator (src/fft.c),
feature extraction (src/feature_extraction.c), two-class LDA
(src/lda.c) and the debounced command classifier (src/classifier.c).
Machine floats are modelled as exact real numbers; machine `size_t`
values as naturals with explicit wrap where overflow can matter.
-/

namespace BCI

/-! # Definitions -/

/-! ## fft.c: utility functions on sizes -/

/-- C source `is_power_of_2` (fft.c): `n > 0 && (n & (n - 1)) == 0`. -/
def is_power_of_2 (n : ℕ) : Bool :=
  decide (n > 0) && (n &&& (n - 1) == 0)

/-- C source `next_power_of_2` (fft.c).  The C function works on `size_t`
(64-bit); the bit-smearing cascade is `n |= n >> 1; ... ; n |= n >> 16`
followed by `n++`, whose increment wraps modulo 2^64. -/
def next_power_of_2 (n : ℕ) : ℕ :=
  if n = 0 then 1
  else
    let x0 := n - 1
    let x1 := x0 ||| (x0 >>> 1)
    let x2 := x1 ||| (x1 >>> 2)
    let x3 := x2 ||| (x2 >>> 4)
    let x4 := x3 ||| (x3 >>> 8)
    let x5 := x4 ||| (x4 >>> 16)
    (x5 + 1) % 2 ^ 64

/-- C source `bit_reverse` (fft.c): for each `i < bits`, if bit `i` of `n`
is set, set bit `bits - 1 - i` of the result. -/
def bit_reverse (n bits : ℕ) : ℕ :=
  (List.range bits).foldl
    (fun reversed i =>
      if n &&& (1 <<< i) ≠ 0 then reversed ||| (1 <<< (bits - 1 - i)) else reversed)
    0

/-- The bit-smearing cascade of `next_power_of_2`, isolated for proofs. -/
def smear (x : ℕ) : ℕ :=
  let x1 := x ||| (x >>> 1)
  let x2 := x1 ||| (x1 >>> 2)
  let x3 := x2 ||| (x2 >>> 4)
  let x4 := x3 ||| (x3 >>> 8)
  x4 ||| (x4 >>> 16)

/-! ## config.h constants and types.h data model

The C `float` values are modelled as exact real numbers. -/

def SAMPLING_RATE : ℝ := 256
def ALPHA_LOW_FREQ : ℝ := 8
def ALPHA_HIGH_FREQ : ℝ := 13
def BETA_LOW_FREQ : ℝ := 13
def BETA_HIGH_FREQ : ℝ := 30
def FOCUS_THRESHOLD : ℝ := 0.6
def RELAX_THRESHOLD : ℝ := 0.6
def BLINK_THRESHOLD : ℝ := 3.0
def DEBOUNCE_COUNT : ℕ := 2
def VISUAL_ALPHA_NORMAL : ℝ := 0.35
def VISUAL_ALPHA_BORDERLINE : ℝ := 0.25
def MOTOR_BETA_NORMAL : ℝ := 0.30
def MOTOR_BETA_BORDERLINE : ℝ := 0.20
def ATTENTION_RATIO_NORMAL : ℝ := 1.5
def ATTENTION_RATIO_BORDER : ℝ := 2.0

/-- C source `command_t` (types.h). -/
inductive command_t
  | CMD_NONE
  | CMD_FOCUS
  | CMD_RELAX
  | CMD_BLINK
  deriving DecidableEq

/-- C source `prediction_t` (types.h). -/
inductive prediction_t
  | PRED_NORMAL
  | PRED_BORDERLINE
  | PRED_IMPAIRED
  deriving DecidableEq

/-- C source `features_t` (types.h). -/
structure features_t where
  theta_power : ℝ
  alpha_power : ℝ
  beta_power : ℝ
  gamma_power : ℝ
  peak_amplitude : ℝ
  variance : ℝ

/-- C source `predictions_t` (types.h). -/
structure predictions_t where
  visual_impairment : prediction_t
  motor_impairment : prediction_t
  attention_deficit : prediction_t

/-- C source `classifier_state_t` (classifier.h): `debounce_counter` is a C
`int`, modelled as `ℤ` (its value never approaches the 32-bit range in any
behaviour considered here). -/
structure classifier_state_t where
  last_command : command_t
  debounce_counter : ℤ
  baseline_amplitude : ℝ

/-! ## classifier.c: decision engine -/

noncomputable section

/-- C source `classifier_init` (classifier.c). -/
def classifier_init : classifier_state_t :=
  { last_command := command_t.CMD_NONE
    debounce_counter := 0
    baseline_amplitude := 1.0 }

/-- C source `update_baseline` (classifier.c): exponential moving average
with fixed smoothing factor `alpha = 0.1`. -/
def update_baseline (state : classifier_state_t) (amplitude : ℝ) :
    classifier_state_t :=
  let alpha : ℝ := 0.1
  { state with
    baseline_amplitude := alpha * amplitude + (1.0 - alpha) * state.baseline_amplitude }

/-- The priority-ordered candidate evaluation at the top of
`classify_command` (classifier.c lines 18-31): BLINK, then FOCUS, then
RELAX, else NONE. -/
def detected_command (features : features_t) (state : classifier_state_t) :
    command_t :=
  if features.peak_amplitude > BLINK_THRESHOLD * state.baseline_amplitude then
    command_t.CMD_BLINK
  else if features.beta_power > FOCUS_THRESHOLD then
    command_t.CMD_FOCUS
  else if features.alpha_power > RELAX_THRESHOLD then
    command_t.CMD_RELAX
  else
    command_t.CMD_NONE

/-- C source `classify_command` (classifier.c): candidate evaluation,
debounce, confirmation and baseline adaptation.  Returns the emitted
command together with the mutated state. -/
def classify_command (features : features_t) (state : classifier_state_t) :
    command_t × classifier_state_t :=
  let detected := detected_command features state
  let state1 :=
    if detected = state.last_command then
      { state with debounce_counter := state.debounce_counter + 1 }
    else
      { state with debounce_counter := 1, last_command := detected }
  if state1.debounce_counter ≥ (DEBOUNCE_COUNT : ℤ) then
    (detected,
      if detected ≠ command_t.CMD_BLINK then
        update_baseline state1 features.peak_amplitude
      else state1)
  else
    (command_t.CMD_NONE, state1)

/-- State after `k` calls of `classify_command` on the same feature vector,
starting from the freshly initialized state. -/
def iterate_classify (f : features_t) : ℕ → classifier_state_t
  | 0 => classifier_init
  | k + 1 => (classify_command f (iterate_classify f k)).2

/-- Command returned by call number `k` (1-based) in the constant-input
scenario. -/
def call_output (f : features_t) (k : ℕ) : command_t :=
  (classify_command f (iterate_classify f (k - 1))).1

/-- Feature vector used by call number `k+1` (0-based index `k`) in the
alternating scenario: odd-numbered calls use `f`, even-numbered use `g`. -/
def alt_signal (f g : features_t) (k : ℕ) : features_t :=
  if k % 2 = 0 then f else g

/-- State after `k` alternating calls, starting from the initialized state. -/
def iterate_alt (f g : features_t) : ℕ → classifier_state_t
  | 0 => classifier_init
  | k + 1 => (classify_command (alt_signal f g k) (iterate_alt f g k)).2

/-- Command returned by call number `k` (1-based) in the alternating
scenario. -/
def alt_call_output (f g : features_t) (k : ℕ) : command_t :=
  (classify_command (alt_signal f g (k - 1)) (iterate_alt f g (k - 1))).1

/-- C source `predict_impairments` (classifier.c): three independent
three-tier threshold mappings.  The attention tier divides theta power by
beta power, substituting the sentinel ratio 10.0 when beta power is at most
0.01. -/
def predict_impairments (features : features_t) : predictions_t :=
  { visual_impairment :=
      if features.alpha_power ≥ VISUAL_ALPHA_NORMAL then prediction_t.PRED_NORMAL
      else if features.alpha_power ≥ VISUAL_ALPHA_BORDERLINE then
        prediction_t.PRED_BORDERLINE
      else prediction_t.PRED_IMPAIRED
    motor_impairment :=
      if features.beta_power ≥ MOTOR_BETA_NORMAL then prediction_t.PRED_NORMAL
      else if features.beta_power ≥ MOTOR_BETA_BORDERLINE then
        prediction_t.PRED_BORDERLINE
      else prediction_t.PRED_IMPAIRED
    attention_deficit :=
      let ratioTB :=
        if features.beta_power > 0.01 then
          features.theta_power / features.beta_power
        else 10.0
      if ratioTB ≤ ATTENTION_RATIO_NORMAL then prediction_t.PRED_NORMAL
      else if ratioTB ≤ ATTENTION_RATIO_BORDER then prediction_t.PRED_BORDERLINE
      else prediction_t.PRED_IMPAIRED }

/-! ## fft.c: complex arithmetic and the radix-2 FFT

The C struct `complex_t` of two floats is modelled by `ℂ`; the C helper
functions are translated literally on the real and imaginary parts. -/

/-- C source `complex_create` (fft.c). -/
def complex_create (real imag : ℝ) : ℂ := ⟨real, imag⟩

/-- C source `complex_add` (fft.c). -/
def complex_add (a b : ℂ) : ℂ := ⟨a.re + b.re, a.im + b.im⟩

/-- C source `complex_sub` (fft.c). -/
def complex_sub (a b : ℂ) : ℂ := ⟨a.re - b.re, a.im - b.im⟩

/-- C source `complex_mul` (fft.c). -/
def complex_mul (a b : ℂ) : ℂ :=
  ⟨a.re * b.re - a.im * b.im, a.re * b.im + a.im * b.re⟩

/-- C source `complex_magnitude_squared` (fft.c). -/
def complex_magnitude_squared (c : ℂ) : ℝ := c.re * c.re + c.im * c.im

/-- The stage-`m` twiddle factor of `fft_compute` (fft.c):
`complex_create(cos(-2*pi/m), sin(-2*pi/m))`. -/
def wm (m : ℕ) : ℂ :=
  complex_create (Real.cos (-2 * Real.pi / m)) (Real.sin (-2 * Real.pi / m))

/-- The running twiddle `w` of the butterfly loop: it starts at
`complex_create(1, 0)` and is multiplied by `wm m` once per iteration, so
after `j` iterations it equals `wpow m j`. -/
def wpow (m : ℕ) : ℕ → ℂ
  | 0 => complex_create 1.0 0.0
  | j + 1 => complex_mul (wpow m j) (wm m)

/-- One stage of the in-place Cooley-Tukey loop of `fft_compute` (fft.c),
expressed as a pure map on the array: within each block of size `m`, entry
`k + j` (for `j < m/2`) becomes `u + t` and entry `k + j + m/2` becomes
`u - t`, where `u`, `t = w^j * a[k+j+m/2]` are read from the pre-stage
array.  This is faithful because each loop iteration writes a disjoint pair
of entries and reads only values the stage has not yet overwritten. -/
def fftStage (n m : ℕ) (a : ℕ → ℂ) : ℕ → ℂ := fun idx =>
  if idx < n then
    let m2 := m / 2
    let j := idx % m
    if j < m2 then
      complex_add (a idx) (complex_mul (wpow m j) (a (idx + m2)))
    else
      complex_sub (a (idx - m2)) (complex_mul (wpow m (j - m2)) (a idx))
  else a idx

/-- The staged butterfly loop of `fft_compute` (fft.c): stages `1..bits`
with sub-DFT size `m = 2^stage`, applied to the bit-reverse-permuted
array. -/
def fftRun (bits : ℕ) (a0 : ℕ → ℂ) : ℕ → ℂ :=
  (List.range bits).foldl (fun a stage => fftStage (2 ^ bits) (2 ^ (stage + 1)) a) a0

/-- C source `fft_compute` (fft.c).  A non-power-of-two size is rejected
(`log_error` plus early return, so the output buffer receives nothing:
modelled as `none`).  The C bit counting loop (`while (temp > 1) ...`)
computes exactly `Nat.log2 n`.  The permutation loop writes
`output[bit_reverse i] = input[i]`; since `bit_reverse _ bits` is an
involution on indices below `2^bits` (theorem `bit_reverse_involution`),
this is the same as `output[j] = input[bit_reverse j]`. -/
def fft_compute (input : ℕ → ℝ) (n : ℕ) : Option (ℕ → ℂ) :=
  if is_power_of_2 n then
    let bits := Nat.log2 n
    some (fftRun bits (fun j =>
      if j < n then complex_create (input (bit_reverse j bits)) 0.0 else 0))
  else none

/-- C source `fft_inverse` (fft.c): conjugate during the permutation, run
the same staged loop, then scale by `1/n` and conjugate again
(`output[i].real *= scale; output[i].imag *= -scale`). -/
def fft_inverse (input : ℕ → ℂ) (n : ℕ) : Option (ℕ → ℂ) :=
  if is_power_of_2 n then
    let bits := Nat.log2 n
    let run := fftRun bits (fun j =>
      if j < n then
        complex_create ((input (bit_reverse j bits)).re)
          (-((input (bit_reverse j bits)).im))
      else 0)
    some (fun i =>
      if i < n then
        complex_create ((run i).re * (1.0 / n)) ((run i).im * (-(1.0 / n)))
      else run i)
  else none

/-- C source `apply_hanning_window` (fft.c): multiply the first `length`
samples by `0.5 * (1 - cos(2*pi*i/(length-1)))`. -/
def apply_hanning_window (signal : ℕ → ℝ) (length : ℕ) : ℕ → ℝ := fun i =>
  if i < length then
    signal i * (0.5 * (1.0 - Real.cos (2.0 * Real.pi * i / ((length - 1 : ℕ) : ℝ))))
  else signal i

/-- C source `power_spectrum_t` (fft.h): the `power` and `frequencies`
arrays are modelled as functions, meaningful on indices below `num_bins`. -/
structure power_spectrum_t where
  power : ℕ → ℝ
  frequencies : ℕ → ℝ
  num_bins : ℕ
  frequency_resolution : ℝ

/-- C source `calculate_power_spectrum` (fft.c): one-sided spectrum with
`n/2 + 1` bins; bin `i` has frequency `i * (sampling_rate/n)` and power
`|X[i]|^2 / n^2`, doubled for every bin except DC (`i = 0`) and Nyquist
(`i = n/2`).  (The `malloc` failure path is not modelled.) -/
def calculate_power_spectrum (fft_result : ℕ → ℂ) (n : ℕ)
    (sampling_rate : ℝ) : power_spectrum_t :=
  { num_bins := n / 2 + 1
    frequency_resolution := sampling_rate / n
    frequencies := fun i => i * (sampling_rate / n)
    power := fun i =>
      if i = 0 ∨ i = n / 2 then
        complex_magnitude_squared (fft_result i) / ((n * n : ℕ) : ℝ)
      else
        2.0 * complex_magnitude_squared (fft_result i) / ((n * n : ℕ) : ℝ) }

/-- C source `calculate_band_power_psd` (fft.c): sum the power of all bins
whose frequency lies in `[low_freq, high_freq]`, then multiply by the
frequency resolution. -/
def calculate_band_power_psd (spectrum : power_spectrum_t)
    (low_freq high_freq : ℝ) : ℝ :=
  (∑ i in Finset.range spectrum.num_bins,
    if low_freq ≤ spectrum.frequencies i ∧ spectrum.frequencies i ≤ high_freq
    then spectrum.power i else 0) * spectrum.frequency_resolution

/-- C source `calculate_band_power_fft` (fft.c): zero-pad to the next power
of two, apply the Hanning window over the original `length` samples,
transform, and integrate the band.  The C code calls `fft_compute` without
checking; the `none` case (never reached for any length whose padded size
is a genuine power of two) is modelled as the same `0.0` the allocation
failure path returns. -/
def calculate_band_power_fft (signal : ℕ → ℝ) (length : ℕ)
    (sampling_rate low_freq high_freq : ℝ) : ℝ :=
  let fft_size := next_power_of_2 length
  let padded_signal := fun i => if i < length then signal i else 0
  let windowed := apply_hanning_window padded_signal length
  match fft_compute windowed fft_size with
  | some fft_result =>
      calculate_band_power_psd
        (calculate_power_spectrum fft_result fft_size sampling_rate)
        low_freq high_freq
  | none => 0

/-! ## feature_extraction.c -/

/-- C source `calculate_mean` (feature_extraction.c): the division
`sum / length` is performed unconditionally; for `length = 0` the C float
division `0.0f / 0` produces NaN, i.e. no real value, modelled as `none`. -/
def calculate_mean (signal : ℕ → ℝ) (length : ℕ) : Option ℝ :=
  if length = 0 then none
  else some ((∑ i in Finset.range length, signal i) / length)

/-- C source `calculate_variance` (feature_extraction.c): population
variance (divisor `length`).  The NaN produced by `calculate_mean` on an
empty buffer propagates through the accumulation and final division. -/
def calculate_variance (signal : ℕ → ℝ) (length : ℕ) : Option ℝ :=
  (calculate_mean signal length).map (fun mean =>
    (∑ i in Finset.range length, (signal i - mean) * (signal i - mean)) / length)

/-- C source `detect_peak_amplitude` (feature_extraction.c): running
maximum of the absolute sample values, starting from 0. -/
def detect_peak_amplitude (signal : ℕ → ℝ) (length : ℕ) : ℝ :=
  (List.range length).foldl
    (fun max_amplitude i =>
      if |signal i| > max_amplitude then |signal i| else max_amplitude) 0

/-- C source `calculate_band_power` (feature_extraction.c): config.h
defines `USE_FFT_BANDPOWER`, so the compiled path is the FFT one with the
global `SAMPLING_RATE`. -/
def calculate_band_power (signal : ℕ → ℝ) (length : ℕ)
    (low_freq high_freq : ℝ) : ℝ :=
  calculate_band_power_fft signal length SAMPLING_RATE low_freq high_freq

/-- C source `extract_features` (feature_extraction.c): writes the alpha,
beta, peak-amplitude and variance fields of the caller-supplied struct,
then normalizes alpha/beta to ratios when their sum exceeds 0.01 and
otherwise sets both to the neutral 0.5.  The theta and gamma fields of the
struct are never assigned.  (For `length = 0` the C variance is NaN; the
`getD 0` placeholder is irrelevant to every claim, all of which concern
non-empty buffers or the untouched fields.) -/
def extract_features (signal : ℕ → ℝ) (length : ℕ)
    (features : features_t) : features_t :=
  let alpha_raw := calculate_band_power signal length ALPHA_LOW_FREQ ALPHA_HIGH_FREQ
  let beta_raw := calculate_band_power signal length BETA_LOW_FREQ BETA_HIGH_FREQ
  let peak := detect_peak_amplitude signal length
  let varval := (calculate_variance signal length).getD 0
  let total_power := alpha_raw + beta_raw
  if total_power > 0.01 then
    { features with
      alpha_power := alpha_raw / total_power
      beta_power := beta_raw / total_power
      peak_amplitude := peak
      variance := varval }
  else
    { features with
      alpha_power := 0.5
      beta_power := 0.5
      peak_amplitude := peak
      variance := varval }

/-! ## lda.c -/

/-- C source `lda_model_t` (lda.h): the projection array is modelled as a
function, meaningful on indices below `num_features`. -/
structure lda_model_t where
  projection : ℕ → ℝ
  threshold : ℝ
  num_features : ℕ
  is_trained : Bool

/-- C source `lda_sample_t` (lda.h). -/
structure lda_sample_t where
  features : ℕ → ℝ
  label : ℤ

/-- C source `lda_init` (lda.c): `calloc` zero-fills the projection
vector.  (The allocation-failure path is not modelled.) -/
def lda_init (num_features : ℕ) : lda_model_t :=
  { projection := fun _ => 0
    threshold := 0.0
    num_features := num_features
    is_trained := false }

/-- C source static `compute_mean` (lda.c): per-component mean over the
samples carrying `target_label`; if no sample matches, the zero
initialization is left in place (the `count > 0` guard skips the
division). -/
def compute_mean (samples : List lda_sample_t) (target_label : ℤ) : ℕ → ℝ :=
  let matching := samples.filter (fun s => s.label == target_label)
  fun j =>
    if matching.length = 0 then 0
    else (matching.map (fun s => s.features j)).sum / matching.length

/-- C source `lda_train` (lda.c): rejects only an empty sample set (and a
null model/sample pointer, not modelled); otherwise computes the two class
means, takes their difference as the raw projection, normalizes it when its
Euclidean norm exceeds 1e-4, sets the threshold to the midpoint of the
projected class means, and marks the model trained.  `FALSE` with no
mutation is modelled as `none`. -/
def lda_train (model : lda_model_t) (samples : List lda_sample_t) :
    Option lda_model_t :=
  match samples with
  | [] => none
  | _ :: _ =>
    let n := model.num_features
    let mean0 := compute_mean samples 0
    let mean1 := compute_mean samples 1
    let raw := fun i => mean1 i - mean0 i
    let norm := Real.sqrt (∑ i in Finset.range n, raw i * raw i)
    let projection := if norm > 0.0001 then (fun i => raw i / norm) else raw
    let projected_mean0 := ∑ i in Finset.range n, projection i * mean0 i
    let projected_mean1 := ∑ i in Finset.range n, projection i * mean1 i
    some { model with
      projection := projection
      threshold := (projected_mean0 + projected_mean1) / 2.0
      is_trained := true }

/-- C source `lda_project` (lda.c): an untrained model returns the fixed
sentinel 0.0; otherwise the dot product of projection and features. -/
def lda_project (model : lda_model_t) (features : ℕ → ℝ) : ℝ :=
  if model.is_trained then
    ∑ i in Finset.range model.num_features, model.projection i * features i
  else 0.0

/-- C source `lda_predict` (lda.c): class 1 iff the projection is at least
the threshold. -/
def lda_predict (model : lda_model_t) (features : ℕ → ℝ) : ℤ :=
  if lda_project model features ≥ model.threshold then 1 else 0

/-- C source `lda_accuracy` (lda.c): fraction of samples whose prediction
matches the label, 0.0 for an empty set. -/
def lda_accuracy (model : lda_model_t) (samples : List lda_sample_t) : ℝ :=
  if samples.length = 0 then 0.0
  else
    ((samples.filter (fun s => lda_predict model s.features == s.label)).length : ℝ) /
      samples.length

/-- The textbook discrete Fourier transform, used as the specification
against which the staged loop of `fft_compute` is proved correct. -/
def dft (n : ℕ) (y : ℕ → ℂ) (k : ℕ) : ℂ :=
  ∑ r in Finset.range n, y r * (wm n) ^ (r * k)

end

/-! # Theorems -/

/-! ## next_power_of_2 (claim C8) -/

theorem next_power_of_2_eq_smear (n : ℕ) (hn : n ≠ 0) :
    next_power_of_2 n = (smear (n - 1) + 1) % 2 ^ 64 := by
  simp [next_power_of_2, smear, hn]

/-- One smearing step widens a run of set bits below a fixed bit `i`. -/
theorem cover_step {y : ℕ} {i c w : ℕ} (hcw : c ≤ w + 1)
    (h : ∀ j, i ≤ j + w → j ≤ i → y.testBit j = true) :
    ∀ j, i ≤ j + (w + c) → j ≤ i → (y ||| (y >>> c)).testBit j = true := by
  intro j hj1 hj2
  rw [Nat.testBit_or, Nat.testBit_shiftRight]
  by_cases hcase : i ≤ j + w
  · rw [h j hcase hj2]
    simp
  · have h2 : y.testBit (c + j) = true := h (c + j) (by omega) (by omega)
    rw [h2]
    simp

/-- All bits of `smear x` from the highest set bit of `x` down to 31 places
below it are set. -/
theorem smear_testBit_true {x i : ℕ} (hx : x.testBit i = true) :
    ∀ j, i ≤ j + 31 → j ≤ i → (smear x).testBit j = true := by
  have h0 : ∀ j, i ≤ j + 0 → j ≤ i → x.testBit j = true := by
    intro j h1 h2
    have : j = i := by omega
    rwa [this]
  have h1 := cover_step (c := 1) (by omega) h0
  have h2 := cover_step (c := 2) (by omega) h1
  have h4 := cover_step (c := 4) (by omega) h2
  have h8 := cover_step (c := 8) (by omega) h4
  have h16 := cover_step (c := 16) (by omega) h8
  intro j hj1 hj2
  have := h16 j (by omega) hj2
  simpa [smear] using this

/-- Clear high bits stay clear through an or-shift step. -/
theorem high_clear_step {a : ℕ} {p s : ℕ}
    (h : ∀ k, p ≤ k → a.testBit k = false) :
    ∀ k, p ≤ k → (a ||| (a >>> s)).testBit k = false := by
  intro k hk
  rw [Nat.testBit_or, Nat.testBit_shiftRight]
  rw [h k hk, h (s + k) (by omega)]
  simp

/-- Bits of `smear x` above the highest set bit of `x` are clear. -/
theorem smear_testBit_false {x p : ℕ} (h : ∀ k, p ≤ k → x.testBit k = false) :
    ∀ k, p ≤ k → (smear x).testBit k = false := by
  have h1 := high_clear_step (s := 1) h
  have h2 := high_clear_step (s := 2) h1
  have h4 := high_clear_step (s := 4) h2
  have h8 := high_clear_step (s := 8) h4
  have h16 := high_clear_step (s := 16) h8
  intro k hk
  simpa [smear] using h16 k hk

/-- For `0 < x < 2^32` the smearing cascade fills every bit up to the
highest set bit of `x`. -/
theorem smear_eq {x : ℕ} (hx : x ≠ 0) (hlt : x < 2 ^ 32) :
    smear x = 2 ^ (Nat.log2 x + 1) - 1 := by
  set L := Nat.log2 x with hL
  have hxle : 2 ^ L ≤ x := Nat.log2_self_le hx
  have hxlt : x < 2 ^ (L + 1) := Nat.lt_log2_self
  have hL31 : L ≤ 31 := by
    by_contra hcon
    have : 2 ^ 32 ≤ 2 ^ L := Nat.pow_le_pow_right (by norm_num) (by omega)
    omega
  have hbitL : x.testBit L = true := by
    rw [Nat.testBit_to_div_mod]
    have hpow : 2 ^ (L + 1) = 2 * 2 ^ L := by rw [pow_succ]; ring
    have hdiv : x / 2 ^ L = 1 := by
      apply Nat.div_eq_of_lt_le (by simpa using hxle)
      omega
    simp [hdiv]
  apply Nat.eq_of_testBit_eq
  intro k
  rw [Nat.testBit_two_pow_sub_one]
  by_cases hk : k < L + 1
  · rw [smear_testBit_true hbitL k (by omega) (by omega)]
    simp [hk]
  · have hhigh : ∀ j, L + 1 ≤ j → x.testBit j = false := by
      intro j hj
      apply Nat.testBit_lt_two_pow
      exact lt_of_lt_of_le hxlt (Nat.pow_le_pow_right (by norm_num) hj)
    rw [smear_testBit_false hhigh k (by omega)]
    simp [hk]

theorem smear_zero : smear 0 = 0 := by decide

/-- C8 (amended): for every input length `1 ≤ n ≤ 2^32` the padded transform
size computed by `next_power_of_2` is the smallest power of two greater than
or equal to `n`.  (For `n > 2^32` the smearing cascade, which stops at a
16-bit shift, no longer fills all lower bits and the result is wrong.) -/
theorem next_power_of_2_correct (n : ℕ) (h1 : 1 ≤ n) (h2 : n ≤ 2 ^ 32) :
    n ≤ next_power_of_2 n ∧ (∃ k, next_power_of_2 n = 2 ^ k) ∧
      ∀ m k, n ≤ m → m = 2 ^ k → next_power_of_2 n ≤ m := by
  rcases eq_or_lt_of_le h1 with h | h
  · have hn : next_power_of_2 n = 1 := by
      rw [← h, next_power_of_2_eq_smear 1 (by omega)]
      decide
    refine ⟨by omega, ⟨0, by simpa using hn⟩, ?_⟩
    intro m k hm hk
    have : 0 < 2 ^ k := Nat.pos_pow_of_pos k (by omega)
    omega
  · set x := n - 1 with hxdef
    have hx : x ≠ 0 := by omega
    have hxlt : x < 2 ^ 32 := by omega
    set L := Nat.log2 x with hLdef
    have hxle : 2 ^ L ≤ x := Nat.log2_self_le hx
    have hxup : x < 2 ^ (L + 1) := Nat.lt_log2_self
    have hL31 : L ≤ 31 := by
      by_contra hcon
      have : 2 ^ 32 ≤ 2 ^ L := Nat.pow_le_pow_right (by norm_num) (by omega)
      omega
    have hsmall : 2 ^ (L + 1) < 2 ^ 64 := by
      have : 2 ^ (L + 1) ≤ 2 ^ 32 := Nat.pow_le_pow_right (by norm_num) (by omega)
      have h64 : (2:ℕ) ^ 32 < 2 ^ 64 := by norm_num
      omega
    have hval : next_power_of_2 n = 2 ^ (L + 1) := by
      rw [next_power_of_2_eq_smear n (by omega), ← hxdef, smear_eq hx hxlt, ← hLdef]
      have hpos : 0 < 2 ^ (L + 1) := Nat.pos_pow_of_pos _ (by omega)
      rw [Nat.sub_add_cancel (by omega)]
      exact Nat.mod_eq_of_lt hsmall
    refine ⟨by omega, ⟨L + 1, hval⟩, ?_⟩
    intro m k hm hk
    have hLk : 2 ^ L < 2 ^ k := by omega
    have : L < k := (Nat.pow_lt_pow_iff_right (by norm_num)).mp hLk
    have : 2 ^ (L + 1) ≤ 2 ^ k := Nat.pow_le_pow_right (by norm_num) (by omega)
    omega

/-- C8 witness: `next_power_of_2` is correct at the concrete input 37
(the smallest power of two at or above 37 is 64). -/
theorem next_power_of_2_correct_witness :
    1 ≤ 37 ∧ 37 ≤ 2 ^ 32 ∧
      (37 ≤ next_power_of_2 37 ∧ (∃ k, next_power_of_2 37 = 2 ^ k) ∧
        ∀ m k, 37 ≤ m → m = 2 ^ k → next_power_of_2 37 ≤ m) :=
  ⟨by norm_num, by norm_num,
    next_power_of_2_correct 37 (by norm_num) (by norm_num)⟩

/-- C8 counterexample: at `n = 2^33 + 1` the C cascade (which stops after the
`>> 16` shift) produces 17179869181 = 2^34 - 3, which is not a power of two at
all, refuting the claim that for every `n ≥ 1` the result is the smallest
power of two at or above `n`. -/
theorem next_power_of_2_counterexample :
    next_power_of_2 (2 ^ 33 + 1) = 17179869181 ∧
      is_power_of_2 17179869181 = false := by decide

/-! ## classifier.c: baseline adaptation (claim C1) -/

/-- C1 (amended): the baseline is rewritten by the exponential moving
average `0.1 * peak + 0.9 * baseline` exactly when the post-debounce counter
reaches `DEBOUNCE_COUNT` and the detected candidate is not BLINK.  This
includes calls that confirm the candidate NONE (which also return NONE), so
a NONE-returning call can change the baseline; BLINK-confirming calls and
unconfirmed calls never change it. -/
theorem classify_command_baseline (f : features_t) (s : classifier_state_t) :
    (classify_command f s).2.baseline_amplitude =
      if (if detected_command f s = s.last_command then s.debounce_counter + 1
            else 1) ≥ (DEBOUNCE_COUNT : ℤ) ∧
          detected_command f s ≠ command_t.CMD_BLINK then
        0.1 * f.peak_amplitude + (1 - 0.1) * s.baseline_amplitude
      else s.baseline_amplitude := by
  unfold classify_command update_baseline
  by_cases h1 : detected_command f s = s.last_command <;>
    by_cases h2 : detected_command f s = command_t.CMD_BLINK <;>
      simp only [h1, h2, if_true, if_false, ite_true, ite_false, ne_eq,
        not_true_eq_false, not_false_eq_true] <;>
    split_ifs <;> simp_all <;> norm_num

/-- C1 counterexample: with every rule below threshold and an
already-saturated counter, the call returns NONE yet the baseline moves
from 1 to 0.9, refuting the claim that NONE-returning calls leave the
baseline unchanged. -/
theorem classify_command_baseline_counterexample :
    (classify_command ⟨0, 0, 0, 0, 0, 0⟩
        ⟨command_t.CMD_NONE, 5, 1⟩).1 = command_t.CMD_NONE ∧
      (classify_command ⟨0, 0, 0, 0, 0, 0⟩
          ⟨command_t.CMD_NONE, 5, 1⟩).2.baseline_amplitude ≠ (1 : ℝ) := by
  have hd : detected_command ⟨0, 0, 0, 0, 0, 0⟩ ⟨command_t.CMD_NONE, 5, 1⟩ =
      command_t.CMD_NONE := by
    norm_num [detected_command, BLINK_THRESHOLD, FOCUS_THRESHOLD,
      RELAX_THRESHOLD]
  constructor
  · simp [classify_command, hd, DEBOUNCE_COUNT]
  · simp [classify_command, hd, DEBOUNCE_COUNT, update_baseline]
    norm_num

/-! ## classifier.c: debounce law (claim C2) -/

/-- C2: starting from the initial state, if the rule evaluation yields
candidate FOCUS on every call (formalized: at every state whose baseline is
still the initial 1.0, which holds for all calls up to the first
confirmation), calls 1 through `DEBOUNCE_COUNT - 1` return NONE and call
number `DEBOUNCE_COUNT` returns FOCUS; and if the calls alternate between
two feature vectors that evaluate to two different qualifying (non-NONE)
candidates, every call returns NONE. -/
theorem classify_debounce_law (f1 f g : features_t) (cf cg : command_t)
    (hfocus : ∀ s : classifier_state_t, s.baseline_amplitude = 1 →
      detected_command f1 s = command_t.CMD_FOCUS)
    (hf : ∀ s : classifier_state_t, s.baseline_amplitude = 1 →
      detected_command f s = cf)
    (hg : ∀ s : classifier_state_t, s.baseline_amplitude = 1 →
      detected_command g s = cg)
    (hqf : cf ≠ command_t.CMD_NONE) (hqg : cg ≠ command_t.CMD_NONE)
    (hne : cf ≠ cg) :
    ((∀ k, 1 ≤ k → k ≤ DEBOUNCE_COUNT - 1 →
        call_output f1 k = command_t.CMD_NONE) ∧
      call_output f1 DEBOUNCE_COUNT = command_t.CMD_FOCUS) ∧
      ∀ k, 1 ≤ k → alt_call_output f g k = command_t.CMD_NONE := by
  have hinit : classifier_init = ⟨command_t.CMD_NONE, 0, 1⟩ := by
    norm_num [classifier_init, classifier_state_t.mk.injEq]
  have hd0 : detected_command f1 ⟨command_t.CMD_NONE, 0, 1⟩ =
      command_t.CMD_FOCUS := hfocus _ (by norm_num)
  have hc1 : classify_command f1 ⟨command_t.CMD_NONE, 0, 1⟩ =
      (command_t.CMD_NONE, ⟨command_t.CMD_FOCUS, 1, 1⟩) := by
    simp [classify_command, hd0, DEBOUNCE_COUNT]
  have hst1 : iterate_classify f1 1 = ⟨command_t.CMD_FOCUS, 1, 1⟩ := by
    show (classify_command f1 (iterate_classify f1 0)).2 = _
    rw [show iterate_classify f1 0 = classifier_init from rfl, hinit, hc1]
  have hd1 : detected_command f1 ⟨command_t.CMD_FOCUS, 1, 1⟩ =
      command_t.CMD_FOCUS := hfocus _ (by norm_num)
  refine ⟨⟨?_, ?_⟩, ?_⟩
  · intro k hk1 hk2
    have hk : k = 1 := by
      have : DEBOUNCE_COUNT - 1 = 1 := by norm_num [DEBOUNCE_COUNT]
      omega
    subst hk
    show (classify_command f1 (iterate_classify f1 0)).1 = _
    rw [show iterate_classify f1 0 = classifier_init from rfl, hinit, hc1]
  · show (classify_command f1 (iterate_classify f1 (DEBOUNCE_COUNT - 1))).1 = _
    rw [show DEBOUNCE_COUNT - 1 = 1 from by norm_num [DEBOUNCE_COUNT], hst1]
    simp [classify_command, hd1, DEBOUNCE_COUNT]
  · have keyAlt : ∀ k,
        (classify_command (alt_signal f g k) (iterate_alt f g k)).1 =
          command_t.CMD_NONE ∧
        iterate_alt f g (k + 1) =
          ⟨(if k % 2 = 0 then cf else cg), 1, 1⟩ := by
      intro k
      induction k with
      | zero =>
        have hd : detected_command (alt_signal f g 0)
            ⟨command_t.CMD_NONE, 0, 1⟩ = cf := by
          rw [show alt_signal f g 0 = f from by simp [alt_signal]]
          exact hf _ (by norm_num)
        have hiter : iterate_alt f g 0 = ⟨command_t.CMD_NONE, 0, 1⟩ := hinit
        have hstep : classify_command (alt_signal f g 0)
            ⟨command_t.CMD_NONE, 0, 1⟩ =
            (command_t.CMD_NONE, ⟨cf, 1, 1⟩) := by
          simp [classify_command, hd, hqf, DEBOUNCE_COUNT]
        refine ⟨?_, ?_⟩
        · show (classify_command (alt_signal f g 0) (iterate_alt f g 0)).1 = _
          rw [hiter, hstep]
        · show (classify_command (alt_signal f g 0) (iterate_alt f g 0)).2 = _
          rw [hiter, hstep]
          norm_num
      | succ k ih =>
        obtain ⟨_, hstate⟩ := ih
        have hcur : detected_command (alt_signal f g (k + 1))
            ⟨(if k % 2 = 0 then cf else cg), 1, 1⟩ =
            (if (k + 1) % 2 = 0 then cf else cg) := by
          by_cases hpar : (k + 1) % 2 = 0
          · rw [show alt_signal f g (k + 1) = f from by simp [alt_signal, hpar]]
            simp only [hpar, if_true]
            exact hf _ (by norm_num)
          · rw [show alt_signal f g (k + 1) = g from by simp [alt_signal, hpar]]
            simp only [hpar, if_false, ite_false]
            exact hg _ (by norm_num)
        have hnecur : (if (k + 1) % 2 = 0 then cf else cg) ≠
            (if k % 2 = 0 then cf else cg) := by
          by_cases hpar : k % 2 = 0
          · have hp1 : (k + 1) % 2 = 1 := by omega
            simp only [hpar, hp1, if_true]
            norm_num
            exact fun hcon => hne hcon.symm
          · have hp0 : (k + 1) % 2 = 0 := by omega
            simp only [hpar, hp0, if_true, if_false, ite_false]
            exact hne
        have hstep : classify_command (alt_signal f g (k + 1))
            ⟨(if k % 2 = 0 then cf else cg), 1, 1⟩ =
            (command_t.CMD_NONE, ⟨(if (k + 1) % 2 = 0 then cf else cg), 1, 1⟩) := by
          simp [classify_command, hcur, hnecur, DEBOUNCE_COUNT]
        refine ⟨?_, ?_⟩
        · show (classify_command (alt_signal f g (k + 1))
              (iterate_alt f g (k + 1))).1 = _
          rw [hstate, hstep]
        · show (classify_command (alt_signal f g (k + 1))
              (iterate_alt f g (k + 1))).2 = _
          rw [hstate, hstep]
    intro k hk
    show (classify_command (alt_signal f g (k - 1)) (iterate_alt f g (k - 1))).1 = _
    exact (keyAlt (k - 1)).1

/-- C2 witness: a beta-heavy vector (beta ratio 0.7) always evaluates to
FOCUS, an alpha-heavy vector (alpha ratio 0.7) to RELAX; with
`DEBOUNCE_COUNT = 2`, call 1 returns NONE and call 2 returns FOCUS, and
the alternating scenario always returns NONE. -/
theorem classify_debounce_law_witness :
    ((∀ s : classifier_state_t, s.baseline_amplitude = 1 →
        detected_command ⟨0, 0, 0.7, 0, 0, 0⟩ s = command_t.CMD_FOCUS) ∧
      (∀ s : classifier_state_t, s.baseline_amplitude = 1 →
        detected_command ⟨0, 0.7, 0, 0, 0, 0⟩ s = command_t.CMD_RELAX) ∧
      command_t.CMD_FOCUS ≠ command_t.CMD_RELAX) ∧
    (((∀ k, 1 ≤ k → k ≤ DEBOUNCE_COUNT - 1 →
        call_output ⟨0, 0, 0.7, 0, 0, 0⟩ k = command_t.CMD_NONE) ∧
      call_output ⟨0, 0, 0.7, 0, 0, 0⟩ DEBOUNCE_COUNT = command_t.CMD_FOCUS) ∧
      ∀ k, 1 ≤ k → alt_call_output ⟨0, 0, 0.7, 0, 0, 0⟩ ⟨0, 0.7, 0, 0, 0, 0⟩ k =
        command_t.CMD_NONE) := by
  have hfoc : ∀ s : classifier_state_t, s.baseline_amplitude = 1 →
      detected_command ⟨0, 0, 0.7, 0, 0, 0⟩ s = command_t.CMD_FOCUS := by
    intro s hs
    norm_num [detected_command, hs, BLINK_THRESHOLD, FOCUS_THRESHOLD]
  have hrel : ∀ s : classifier_state_t, s.baseline_amplitude = 1 →
      detected_command ⟨0, 0.7, 0, 0, 0, 0⟩ s = command_t.CMD_RELAX := by
    intro s hs
    norm_num [detected_command, hs, BLINK_THRESHOLD, FOCUS_THRESHOLD,
      RELAX_THRESHOLD]
  exact ⟨⟨hfoc, hrel, by simp⟩,
    classify_debounce_law _ _ _ command_t.CMD_FOCUS command_t.CMD_RELAX
      hfoc hfoc hrel (by simp) (by simp) (by simp)⟩

/-! ## feature_extraction.c: untouched fields (claim C9) -/

/-- C9: `extract_features` writes only the alpha-power, beta-power,
peak-amplitude and variance fields; the theta-power and gamma-power fields
keep whatever value they held before the call — even though
`predict_impairments` reads the theta-power field to form the theta/beta
ratio (witnessed by two feature records that differ only in theta power and
receive different attention-deficit tiers). -/
theorem extract_features_frame (signal : ℕ → ℝ) (length : ℕ)
    (features : features_t) :
    ((extract_features signal length features).theta_power =
        features.theta_power ∧
      (extract_features signal length features).gamma_power =
        features.gamma_power) ∧
    ((⟨1.2, 0.5, 0.6, 0, 0, 0⟩ : features_t).alpha_power =
        (⟨3.0, 0.5, 0.6, 0, 0, 0⟩ : features_t).alpha_power ∧
      (⟨1.2, 0.5, 0.6, 0, 0, 0⟩ : features_t).beta_power =
        (⟨3.0, 0.5, 0.6, 0, 0, 0⟩ : features_t).beta_power ∧
      (predict_impairments ⟨1.2, 0.5, 0.6, 0, 0, 0⟩).attention_deficit ≠
        (predict_impairments ⟨3.0, 0.5, 0.6, 0, 0, 0⟩).attention_deficit) := by
  refine ⟨⟨?_, ?_⟩, ?_, ?_, ?_⟩
  · simp only [extract_features]
    split_ifs <;> rfl
  · simp only [extract_features]
    split_ifs <;> rfl
  · rfl
  · rfl
  · have h1 : (predict_impairments ⟨1.2, 0.5, 0.6, 0, 0, 0⟩).attention_deficit =
        prediction_t.PRED_BORDERLINE := by
      unfold predict_impairments
      norm_num [ATTENTION_RATIO_NORMAL, ATTENTION_RATIO_BORDER]
    have h2 : (predict_impairments ⟨3.0, 0.5, 0.6, 0, 0, 0⟩).attention_deficit =
        prediction_t.PRED_IMPAIRED := by
      unfold predict_impairments
      norm_num [ATTENTION_RATIO_NORMAL, ATTENTION_RATIO_BORDER]
    rw [h1, h2]
    simp

/-! ## lda.c: untrained prediction (claim C10) -/

/-- C10: prediction with a freshly initialized, untrained model always
returns class 1 (sentinel projection 0 and initial threshold 0, and
0 >= 0), so the accuracy of an untrained model on a non-empty labeled set
is exactly the fraction of samples labeled 1. -/
theorem lda_untrained_predicts_one (num_features : ℕ) (features : ℕ → ℝ)
    (samples : List lda_sample_t) (hne : samples ≠ []) :
    lda_predict (lda_init num_features) features = 1 ∧
      lda_accuracy (lda_init num_features) samples =
        ((samples.filter (fun s => s.label == 1)).length : ℝ) / samples.length := by
  have hpredict : ∀ fv : ℕ → ℝ, lda_predict (lda_init num_features) fv = 1 := by
    intro fv
    simp [lda_predict, lda_project, lda_init]
  refine ⟨hpredict features, ?_⟩
  have hlen : samples.length ≠ 0 := (List.length_pos.mpr hne).ne'
  have hfilter :
      samples.filter (fun s => lda_predict (lda_init num_features) s.features == s.label) =
        samples.filter (fun s => s.label == 1) := by
    apply List.filter_congr
    intro s _
    rw [hpredict s.features]
    by_cases h : s.label = 1
    · simp [h]
    · have h1 : ¬((1 : ℤ) = s.label) := fun hcon => h hcon.symm
      simp [h, h1]
  simp only [lda_accuracy, hfilter]
  rw [if_neg hlen]

/-- C10 witness: on the two-sample set with labels 1 and 0 the untrained
model predicts 1 for everything and scores accuracy 1/2. -/
theorem lda_untrained_predicts_one_witness :
    ([⟨fun _ => 0, (1 : ℤ)⟩, ⟨fun _ => 0, (0 : ℤ)⟩] : List lda_sample_t) ≠ [] ∧
      (lda_predict (lda_init 2) (fun _ => 0) = 1 ∧
        lda_accuracy (lda_init 2)
            [⟨fun _ => 0, (1 : ℤ)⟩, ⟨fun _ => 0, (0 : ℤ)⟩] =
          ((([⟨fun _ => 0, (1 : ℤ)⟩, ⟨fun _ => 0, (0 : ℤ)⟩] :
              List lda_sample_t).filter (fun s => s.label == 1)).length : ℝ) /
            ([⟨fun _ => 0, (1 : ℤ)⟩, ⟨fun _ => 0, (0 : ℤ)⟩] :
              List lda_sample_t).length) :=
  ⟨by simp, lda_untrained_predicts_one 2 (fun _ => 0) _ (by simp)⟩

/-! ## lda.c: training failure conditions (claim C6) -/

/-- C6 (amended): LDA training fails — returns `FALSE` with no mutation —
exactly when given zero samples (or a null pointer, not modelled); when all
samples of one of the two labels are missing but the set is non-empty,
training does NOT fail: the missing class mean stays the zero vector and
the model is marked trained. -/
theorem lda_train_failure (model : lda_model_t) (samples : List lda_sample_t) :
    (samples = [] → lda_train model samples = none) ∧
    (samples ≠ [] → ∃ m, lda_train model samples = some m ∧ m.is_trained = true) := by
  constructor
  · intro h
    subst h
    rfl
  · intro h
    match samples with
    | [] => exact absurd rfl h
    | s :: rest => exact ⟨_, rfl, rfl⟩

/-- C6 witness: training on the empty set fails; training on one concrete
sample succeeds with the trained flag set. -/
theorem lda_train_failure_witness :
    lda_train (lda_init 2) [] = none ∧
      ∃ m, lda_train (lda_init 2) [⟨fun _ => 0, (0 : ℤ)⟩] = some m ∧
        m.is_trained = true :=
  ⟨(lda_train_failure (lda_init 2) []).1 rfl,
    (lda_train_failure (lda_init 2) [⟨fun _ => 0, (0 : ℤ)⟩]).2 (by simp)⟩

/-- C6 counterexample: the one-element training set whose only sample has
label 0 contains no label-1 samples at all, yet `lda_train` returns success
and marks the model trained — refuting the claim that training fails when
all samples of one label are missing. -/
theorem lda_train_counterexample :
    lda_train (lda_init 2) [⟨fun _ => (1 : ℝ), 0⟩] ≠ none ∧
      (lda_train (lda_init 2) [⟨fun _ => (1 : ℝ), 0⟩]).map
          (fun m => m.is_trained) = some true := by
  constructor
  · intro hcon
    exact Option.noConfusion hcon
  · rfl

/-! ## Bridges between the literal complex helpers and Mathlib `ℂ` -/

theorem complex_create_re_im (x y : ℝ) :
    (complex_create x y).re = x ∧ (complex_create x y).im = y := ⟨rfl, rfl⟩

theorem complex_add_eq (a b : ℂ) : complex_add a b = a + b := by
  apply Complex.ext <;> simp [complex_add]

theorem complex_sub_eq (a b : ℂ) : complex_sub a b = a - b := by
  apply Complex.ext <;> simp [complex_sub]

theorem complex_mul_eq (a b : ℂ) : complex_mul a b = a * b := by
  apply Complex.ext <;> simp [complex_mul, Complex.mul_re, Complex.mul_im]

theorem complex_magnitude_squared_eq (c : ℂ) :
    complex_magnitude_squared c = Complex.normSq c := by
  simp [complex_magnitude_squared, Complex.normSq_apply]

theorem wpow_eq (m j : ℕ) : wpow m j = (wm m) ^ j := by
  induction j with
  | zero =>
    apply Complex.ext <;> simp [wpow, complex_create] <;> norm_num
  | succ j ih =>
    rw [wpow, ih, complex_mul_eq, pow_succ]

/-! ## fft.c: power spectrum scaling (claim C4) -/

/-- C4: for an `N`-point complex spectrum (`N` a power of two) the power
spectrum has `N/2 + 1` bins; bin `i` has frequency `i * (sampling_rate/N)`,
and its power is `|X[i]|^2 / N^2` for the DC and Nyquist bins and
`2 * |X[i]|^2 / N^2` for every other bin. -/
theorem calculate_power_spectrum_correct (X : ℕ → ℂ) (n bits : ℕ)
    (hn : n = 2 ^ bits) (sampling_rate : ℝ) (i : ℕ) (hi : i ≤ n / 2) :
    (calculate_power_spectrum X n sampling_rate).num_bins = n / 2 + 1 ∧
    (calculate_power_spectrum X n sampling_rate).frequencies i =
      i * (sampling_rate / n) ∧
    ((i = 0 ∨ i = n / 2) →
      (calculate_power_spectrum X n sampling_rate).power i =
        Complex.normSq (X i) / (n : ℝ) ^ 2) ∧
    (¬(i = 0 ∨ i = n / 2) →
      (calculate_power_spectrum X n sampling_rate).power i =
        2 * Complex.normSq (X i) / (n : ℝ) ^ 2) := by
  refine ⟨rfl, rfl, ?_, ?_⟩ <;> intro h <;>
    simp only [calculate_power_spectrum, h, if_pos, if_neg, if_true, if_false,
      ite_true, ite_false, complex_magnitude_squared_eq] <;>
    push_cast <;> ring

/-- C4 witness: concrete evaluation at `N = 4`, `X = fun _ => 1 + i`,
sampling rate 256, bin `i = 1` (an interior bin, hence doubled). -/
theorem calculate_power_spectrum_correct_witness :
    (4 : ℕ) = 2 ^ 2 ∧ (1 : ℕ) ≤ 4 / 2 ∧
      ((calculate_power_spectrum (fun _ => ⟨1, 1⟩) 4 256).num_bins = 4 / 2 + 1 ∧
        (calculate_power_spectrum (fun _ => ⟨1, 1⟩) 4 256).frequencies 1 =
          ((1 : ℕ) : ℝ) * (256 / ((4 : ℕ) : ℝ)) ∧
        ((1 = 0 ∨ 1 = 4 / 2) →
          (calculate_power_spectrum (fun _ => ⟨1, 1⟩) 4 256).power 1 =
            Complex.normSq (⟨1, 1⟩ : ℂ) / ((4 : ℕ) : ℝ) ^ 2) ∧
        (¬(1 = 0 ∨ 1 = 4 / 2) →
          (calculate_power_spectrum (fun _ => ⟨1, 1⟩) 4 256).power 1 =
            2 * Complex.normSq (⟨1, 1⟩ : ℂ) / ((4 : ℕ) : ℝ) ^ 2)) :=
  ⟨rfl, by norm_num,
    calculate_power_spectrum_correct (fun _ => ⟨1, 1⟩) 4 2 rfl 256 1 (by norm_num)⟩

/-! ## Error handling of class-(a) conditions (claim C7) -/

/-- C7 (amended): a non-power-of-two transform size is detected by
`fft_compute`/`fft_inverse`, which perform no computation and write nothing
to the output (the error is only logged to the console, the `void` return
gives the caller no indication).  A zero-length buffer passed to
`calculate_mean` is NOT detected: the function divides the zero sum by the
zero length and returns NaN — garbage — to the caller. -/
theorem config_error_handling (n : ℕ) (x : ℕ → ℝ) (y : ℕ → ℂ)
    (hn : is_power_of_2 n = false) :
    fft_compute x n = none ∧ fft_inverse y n = none ∧
      calculate_mean x 0 = none := by
  refine ⟨?_, ?_, rfl⟩ <;> simp [fft_compute, fft_inverse, hn]

/-- C7 witness: size 3 is not a power of two, so both transforms reject
it, and the zero-length mean has no real value. -/
theorem config_error_handling_witness :
    is_power_of_2 3 = false ∧
      (fft_compute (fun _ => 1) 3 = none ∧ fft_inverse (fun _ => 1) 3 = none ∧
        calculate_mean (fun _ => 1) 0 = none) :=
  ⟨by decide, config_error_handling 3 (fun _ => 1) (fun _ => 1) (by decide)⟩

/-- C7 counterexample: `calculate_mean` on a zero-length buffer performs
the division anyway; the result is NaN (modelled `none`) handed back
through the ordinary `float` return value — a garbage result, produced
with no error report to the caller — refuting the claim that every
class-(a) condition is reported and produces no garbage. -/
theorem calculate_mean_counterexample :
    calculate_mean (fun _ => (1 : ℝ)) 0 = none := rfl

/-! ## feature_extraction.c: alpha/beta normalization (claim C3) -/

theorem fftStage_zero (n m : ℕ) : fftStage n m (fun _ => 0) = fun _ => 0 := by
  funext idx
  unfold fftStage
  split_ifs <;>
    simp [complex_add_eq, complex_sub_eq, complex_mul_eq]

theorem fftRun_zero (bits : ℕ) : fftRun bits (fun _ => 0) = fun _ => 0 := by
  unfold fftRun
  generalize List.range bits = l
  induction l with
  | nil => rfl
  | cons s rest ih =>
    rw [List.foldl_cons, fftStage_zero, ih]

/-- The transform of an identically-zero buffer is the zero spectrum. -/
theorem fft_compute_zero (x : ℕ → ℝ) (n : ℕ) (hx : ∀ i, x i = 0)
    (hpow : is_power_of_2 n = true) :
    fft_compute x n = some (fun _ => 0) := by
  unfold fft_compute
  rw [hpow]
  simp only [if_true]
  congr 1
  have h0 : (fun j => if j < n then
      complex_create (x (bit_reverse j (Nat.log2 n))) 0.0 else 0) = fun _ => (0 : ℂ) := by
    funext j
    split_ifs
    · rw [hx]
      apply Complex.ext <;> simp [complex_create] <;> norm_num
    · rfl
  rw [h0, fftRun_zero]

/-- The FFT band power of a buffer that is zero on all its samples is 0. -/
theorem calculate_band_power_fft_zero (signal : ℕ → ℝ) (length : ℕ)
    (rate lo hi : ℝ) (hsig : ∀ i, i < length → signal i = 0) :
    calculate_band_power_fft signal length rate lo hi = 0 := by
  simp only [calculate_band_power_fft]
  have hw : apply_hanning_window (fun i => if i < length then signal i else 0)
      length = fun _ => (0 : ℝ) := by
    funext i
    simp only [apply_hanning_window]
    by_cases hi : i < length
    · rw [if_pos hi, if_pos hi, hsig i hi]
      ring
    · rw [if_neg hi, if_neg hi]
  rw [hw]
  cases hpow : is_power_of_2 (next_power_of_2 length) with
  | false =>
    simp only [fft_compute, hpow, Bool.false_eq_true, if_false]
  | true =>
    rw [fft_compute_zero _ _ (fun _ => rfl) hpow]
    simp [calculate_band_power_psd, calculate_power_spectrum,
      complex_magnitude_squared]

/-- C3: for every non-empty sample buffer, the extracted alpha and beta
ratios sum to 1.0 (within 1e-3; in the exact-real model, exactly) whenever
the combined raw alpha+beta band power exceeds the 0.01 epsilon; for an
all-zero buffer the combined power is 0, at or below the epsilon, and both
ratios are set to exactly 0.5. -/
theorem extract_features_normalization (signal : ℕ → ℝ) (length : ℕ)
    (hne : length ≠ 0) (features : features_t) :
    (calculate_band_power signal length ALPHA_LOW_FREQ ALPHA_HIGH_FREQ +
        calculate_band_power signal length BETA_LOW_FREQ BETA_HIGH_FREQ > 0.01 →
      |(extract_features signal length features).alpha_power +
          (extract_features signal length features).beta_power - 1| ≤ 1e-3) ∧
    ((∀ i, i < length → signal i = 0) →
      (extract_features signal length features).alpha_power = 0.5 ∧
        (extract_features signal length features).beta_power = 0.5) := by
  constructor
  · intro htot
    have hne0 : calculate_band_power signal length ALPHA_LOW_FREQ ALPHA_HIGH_FREQ +
        calculate_band_power signal length BETA_LOW_FREQ BETA_HIGH_FREQ ≠ 0 := by
      intro hcon
      rw [hcon] at htot
      norm_num at htot
    simp only [extract_features, if_pos htot]
    rw [div_add_div_same, div_self hne0]
    norm_num
  · intro hz
    have ha : calculate_band_power signal length ALPHA_LOW_FREQ ALPHA_HIGH_FREQ = 0 :=
      calculate_band_power_fft_zero signal length SAMPLING_RATE _ _ hz
    have hb : calculate_band_power signal length BETA_LOW_FREQ BETA_HIGH_FREQ = 0 :=
      calculate_band_power_fft_zero signal length SAMPLING_RATE _ _ hz
    have : ¬(calculate_band_power signal length ALPHA_LOW_FREQ ALPHA_HIGH_FREQ +
        calculate_band_power signal length BETA_LOW_FREQ BETA_HIGH_FREQ > 0.01) := by
      rw [ha, hb]
      norm_num
    simp only [extract_features, if_neg this]
    simp

/-! ## bit_reverse: characterization, bound, recurrences, involution -/

/-- A number is below `2^m` when all its bits from `m` upward are clear. -/
theorem lt_two_pow_of_high_bits {x m : ℕ}
    (h : ∀ i, m ≤ i → x.testBit i = false) : x < 2 ^ m := by
  have h0 : x >>> m = 0 := by
    apply Nat.zero_of_testBit_eq_false
    intro j
    rw [Nat.testBit_shiftRight]
    exact h (m + j) (by omega)
  rw [Nat.shiftRight_eq_div_pow] at h0
  exact (Nat.div_eq_zero_iff (Nat.pos_pow_of_pos m (by omega))).mp h0

/-- The loop guard `n & (1 << i)` of `bit_reverse` tests bit `i`. -/
theorem and_shift_ne (n i : ℕ) : (n &&& (1 <<< i) ≠ 0) ↔ n.testBit i = true := by
  rw [Nat.shiftLeft_eq, one_mul]
  constructor
  · intro hne
    by_contra hbit
    apply hne
    apply Nat.zero_of_testBit_eq_false
    intro k
    rw [Nat.testBit_and, Nat.testBit_two_pow]
    by_cases hk : i = k
    · subst hk
      simp [Bool.eq_false_iff.mpr hbit]
    · simp [hk]
  · intro hbit hcon
    have : (n &&& 2 ^ i).testBit i = true := by
      rw [Nat.testBit_and, Nat.testBit_two_pow, hbit]
      simp
    rw [hcon, Nat.zero_testBit] at this
    exact Bool.false_ne_true this

/-- Bit-level characterization of `bit_reverse`: bit `k` of the result is
set exactly when some bit `i < bits` of `n` is set with `k = bits-1-i`. -/
theorem bit_reverse_spec (n bits k : ℕ) :
    (bit_reverse n bits).testBit k = true ↔
      ∃ i, i < bits ∧ n.testBit i = true ∧ k = bits - 1 - i := by
  have aux : ∀ j, (((List.range j).foldl
      (fun reversed i =>
        if n &&& (1 <<< i) ≠ 0 then reversed ||| (1 <<< (bits - 1 - i))
        else reversed) 0).testBit k = true ↔
      ∃ i, i < j ∧ n.testBit i = true ∧ k = bits - 1 - i) := by
    intro j
    induction j with
    | zero =>
      simp [Nat.zero_testBit]
    | succ j ih =>
      rw [List.range_succ, List.foldl_append, List.foldl_cons, List.foldl_nil]
      by_cases hbit : n.testBit j = true
      · rw [if_pos ((and_shift_ne n j).mpr hbit)]
        rw [Nat.testBit_or, Nat.shiftLeft_eq, one_mul, Nat.testBit_two_pow]
        constructor
        · intro h
          rw [Bool.or_eq_true] at h
          rcases h with h | h
          · obtain ⟨i, hi, hb, hk⟩ := ih.mp h
            exact ⟨i, by omega, hb, hk⟩
          · exact ⟨j, by omega, hbit, (of_decide_eq_true h).symm⟩
        · rintro ⟨i, hi, hb, hk⟩
          by_cases hij : i < j
          · rw [ih.mpr ⟨i, hij, hb, hk⟩]
            simp
          · have : i = j := by omega
            subst this
            rw [hk]
            simp
      · rw [if_neg (fun hcon => hbit ((and_shift_ne n j).mp hcon))]
        rw [ih]
        constructor
        · rintro ⟨i, hi, hb, hk⟩
          exact ⟨i, by omega, hb, hk⟩
        · rintro ⟨i, hi, hb, hk⟩
          refine ⟨i, ?_, hb, hk⟩
          rcases Nat.lt_succ_iff_lt_or_eq.mp hi with h | h
          · exact h
          · subst h
            exact absurd hb hbit
  exact aux bits

theorem bit_reverse_lt (n bits : ℕ) : bit_reverse n bits < 2 ^ bits := by
  apply lt_two_pow_of_high_bits
  intro i hik
  by_contra hcon
  obtain ⟨c, hc, _, hkc⟩ := (bit_reverse_spec n bits i).mp
    (eq_true_of_ne_false hcon)
  omega

/-- Appending a low 0 bit to the input drops the high output bit. -/
theorem bit_reverse_even (b m : ℕ) :
    bit_reverse (2 * b) (m + 1) = bit_reverse b m := by
  apply Nat.eq_of_testBit_eq
  intro k
  rw [Bool.eq_iff_iff, bit_reverse_spec, bit_reverse_spec]
  constructor
  · rintro ⟨i, hi, hb, hk⟩
    match i with
    | 0 =>
      rw [Nat.testBit_to_div_mod] at hb
      simp at hb
    | i + 1 =>
      rw [Nat.testBit_succ, Nat.mul_div_cancel_left b (by norm_num)] at hb
      exact ⟨i, by omega, hb, by omega⟩
  · rintro ⟨i, hi, hb, hk⟩
    refine ⟨i + 1, by omega, ?_, by omega⟩
    rw [Nat.testBit_succ, Nat.mul_div_cancel_left b (by norm_num)]
    exact hb

/-- Bits of `x + 2^m` for `x < 2^m`. -/
theorem testBit_add_two_pow {x : ℕ} (m k : ℕ) (hx : x < 2 ^ m) :
    (x + 2 ^ m).testBit k = (if k = m then true else x.testBit k) := by
  rcases lt_trichotomy k m with hkm | hkm | hkm
  · rw [if_neg (by omega)]
    have hsplit : 2 ^ m = 2 ^ (m - k) * 2 ^ k := by
      rw [← pow_add]
      congr 1
      omega
    have heven : 2 ^ (m - k) = 2 * 2 ^ (m - k - 1) := by
      rw [← pow_succ']
      congr 1
      omega
    have harith : (x + 2 ^ m) / 2 ^ k % 2 = x / 2 ^ k % 2 := by
      rw [hsplit, Nat.add_mul_div_right _ _ (Nat.pos_pow_of_pos k (by omega)), heven]
      omega
    rw [Nat.testBit_to_div_mod, Nat.testBit_to_div_mod, harith]
  · subst hkm
    rw [if_pos rfl, Nat.testBit_to_div_mod]
    have h1 : x / 2 ^ k = 0 := (Nat.div_eq_zero_iff (by positivity)).mpr hx
    have h2 : (x + 2 ^ k) / 2 ^ k = x / 2 ^ k + 1 := by
      have := Nat.add_mul_div_right x 1 (Nat.pos_pow_of_pos k (by omega : (0:ℕ) < 2))
      simpa using this
    rw [h2, h1]
    simp
  · rw [if_neg (by omega)]
    have hlt : x + 2 ^ m < 2 ^ k := by
      have h1 : x + 2 ^ m < 2 ^ (m + 1) := by
        have : 2 ^ (m + 1) = 2 ^ m + 2 ^ m := by ring
        omega
      have h2 : 2 ^ (m + 1) ≤ 2 ^ k := Nat.pow_le_pow_right (by omega) (by omega)
      omega
    rw [Nat.testBit_lt_two_pow hlt, Nat.testBit_lt_two_pow (by
      have : (2:ℕ) ^ m ≤ 2 ^ k := Nat.pow_le_pow_right (by omega) (by omega)
      omega)]

/-- Appending a low 1 bit to the input sets the high output bit. -/
theorem bit_reverse_odd (b m : ℕ) :
    bit_reverse (2 * b + 1) (m + 1) = bit_reverse b m + 2 ^ m := by
  apply Nat.eq_of_testBit_eq
  intro k
  rw [testBit_add_two_pow m k (bit_reverse_lt b m)]
  by_cases hkm : k = m
  · subst hkm
    rw [if_pos rfl, Bool.eq_iff_iff, bit_reverse_spec]
    constructor
    · intro
      trivial
    · intro
      refine ⟨0, by omega, ?_, by omega⟩
      rw [Nat.testBit_to_div_mod]
      simp
      omega
  · rw [if_neg hkm, Bool.eq_iff_iff, bit_reverse_spec, bit_reverse_spec]
    constructor
    · rintro ⟨i, hi, hb, hk⟩
      match i with
      | 0 =>
        omega
      | i + 1 =>
        rw [Nat.testBit_succ, (by omega : (2 * b + 1) / 2 = b)] at hb
        exact ⟨i, by omega, hb, by omega⟩
    · rintro ⟨i, hi, hb, hk⟩
      refine ⟨i + 1, by omega, ?_, by omega⟩
      rw [Nat.testBit_succ, (by omega : (2 * b + 1) / 2 = b)]
      exact hb

/-- `bit_reverse _ bits` is an involution on indices below `2^bits`: the C
permutation loop `output[bit_reverse(i)] = input[i]` therefore agrees with
the functional form `output[j] = input[bit_reverse(j)]`. -/
theorem bit_reverse_involution (i bits : ℕ) (h : i < 2 ^ bits) :
    bit_reverse (bit_reverse i bits) bits = i := by
  apply Nat.eq_of_testBit_eq
  intro k
  by_cases hk : k < bits
  · rw [Bool.eq_iff_iff, bit_reverse_spec]
    constructor
    · rintro ⟨a, ha, hb, hka⟩
      obtain ⟨c, hc, hcb, hac⟩ := (bit_reverse_spec i bits a).mp hb
      have : c = k := by omega
      subst this
      exact hcb
    · intro hb
      refine ⟨bits - 1 - k, by omega, ?_, by omega⟩
      rw [bit_reverse_spec]
      exact ⟨k, by omega, hb, by omega⟩
  · have h1 : (bit_reverse (bit_reverse i bits) bits).testBit k = false := by
      apply Nat.testBit_lt_two_pow
      exact lt_of_lt_of_le (bit_reverse_lt _ _)
        (Nat.pow_le_pow_right (by omega) (by omega))
    have h2 : i.testBit k = false := by
      apply Nat.testBit_lt_two_pow
      exact lt_of_lt_of_le h (Nat.pow_le_pow_right (by omega) (by omega))
    rw [h1, h2]

/-! ## Twiddle factor algebra -/

theorem wm_eq_exp (m : ℕ) :
    wm m = Complex.exp (((-2 * Real.pi / m : ℝ) : ℂ) * Complex.I) := by
  apply Complex.ext
  · rw [Complex.exp_ofReal_mul_I_re]
    rfl
  · rw [Complex.exp_ofReal_mul_I_im]
    rfl

theorem wm_sq (s : ℕ) : wm (2 ^ (s + 1)) ^ 2 = wm (2 ^ s) := by
  rw [wm_eq_exp, wm_eq_exp, ← Complex.exp_nat_mul]
  congr 1
  have h2 : ((2:ℝ) ^ s) ≠ 0 := by positivity
  push_cast
  field_simp
  ring

theorem wm_pow_half (s : ℕ) : wm (2 ^ (s + 1)) ^ 2 ^ s = -1 := by
  rw [wm_eq_exp, ← Complex.exp_nat_mul]
  have h2 : ((2:ℝ) ^ s) ≠ 0 := by positivity
  have harg : ((2 ^ s : ℕ) : ℂ) *
      (((-2 * Real.pi / ((2 ^ (s + 1) : ℕ) : ℝ) : ℝ) : ℂ) * Complex.I) =
      -(((Real.pi : ℝ) : ℂ) * Complex.I) := by
    push_cast
    field_simp
    ring
  rw [harg, Complex.exp_neg, Complex.exp_pi_mul_I]
  norm_num

theorem wm_pow_self (n : ℕ) (hn : n ≠ 0) : wm n ^ n = 1 := by
  rw [wm_eq_exp, ← Complex.exp_nat_mul]
  apply Complex.exp_eq_one_iff.mpr
  refine ⟨-1, ?_⟩
  have hnC : ((n : ℂ)) ≠ 0 := Nat.cast_ne_zero.mpr hn
  push_cast
  field_simp [hnC]
  ring

theorem wm_mul_conj (n : ℕ) : wm n * (starRingEnd ℂ) (wm n) = 1 := by
  rw [Complex.mul_conj]
  have h1 : Complex.normSq (wm n) = 1 := by
    have hpyth := Real.sin_sq_add_cos_sq (-2 * Real.pi / n)
    simp only [wm, complex_create, Complex.normSq_mk]
    nlinarith [hpyth]
  rw [h1]
  norm_num

theorem wm_prim (n : ℕ) (hn : n ≠ 0) : IsPrimitiveRoot (wm n) n := by
  have hexp := (Complex.isPrimitiveRoot_exp n hn).inv
  have heq : wm n = (Complex.exp (2 * Real.pi * Complex.I / n))⁻¹ := by
    rw [wm_eq_exp, ← Complex.exp_neg]
    congr 1
    push_cast
    ring
  rw [heq]
  exact hexp

theorem wm_pow_ne_one (n d : ℕ) (hn : n ≠ 0) (hd : 0 < d) (hdn : d < n) :
    wm n ^ d ≠ 1 :=
  (wm_prim n hn).pow_ne_one_of_pos_of_lt hd hdn

theorem sum_pow_eq_zero {η : ℂ} {n : ℕ} (hη : η ≠ 1) (hpow : η ^ n = 1) :
    ∑ r in Finset.range n, η ^ r = 0 := by
  rw [geom_sum_eq hη, hpow]
  simp

/-- Splitting a sum over `range (2*m)` into even and odd indices. -/
theorem sum_range_two_mul (m : ℕ) (f : ℕ → ℂ) :
    ∑ r in Finset.range (2 * m), f r =
      ∑ r in Finset.range m, (f (2 * r) + f (2 * r + 1)) := by
  induction m with
  | zero => simp
  | succ m ih =>
    rw [Nat.mul_succ, Finset.sum_range_succ, Finset.sum_range_succ,
      Finset.sum_range_succ, ih]
    ring

/-! ## Correctness of the staged Cooley-Tukey loop

After `s` stages, each block of size `2^s` holds the `2^s`-point DFT of the
stride-`2^(bits-s)` subsequence of the input selected by the bit-reversed
block index. -/

theorem fft_stages_spec (bits : ℕ) (y : ℕ → ℂ) :
    ∀ s, s ≤ bits → ∀ b, b < 2 ^ (bits - s) → ∀ t, t < 2 ^ s →
      ((List.range s).foldl
          (fun a stage => fftStage (2 ^ bits) (2 ^ (stage + 1)) a)
          (fun j => if j < 2 ^ bits then y (bit_reverse j bits) else 0))
        (b * 2 ^ s + t) =
      ∑ r in Finset.range (2 ^ s),
        y (r * 2 ^ (bits - s) + bit_reverse b (bits - s)) * wm (2 ^ s) ^ (r * t) := by
  intro s
  induction s with
  | zero =>
    intro _ b hb t ht
    have ht0 : t = 0 := by omega
    subst ht0
    simp only [List.range_zero, List.foldl_nil, pow_zero, mul_one, Nat.add_zero,
      Nat.sub_zero]
    rw [if_pos (by simpa using hb)]
    rw [Finset.sum_range_one]
    simp
  | succ s ih =>
    intro hs1 b hb t ht
    have hs : s ≤ bits := by omega
    have hsub1 : bits - (s + 1) = bits - s - 1 := by omega
    rw [hsub1] at hb
    have hp : (2:ℕ) ^ (s + 1) = 2 * 2 ^ s := by rw [pow_succ]; ring
    have hm2 : (2:ℕ) ^ (s + 1) / 2 = 2 ^ s := by omega
    have hbs : bits - s = (bits - s - 1) + 1 := by omega
    have hbse : (2:ℕ) ^ (bits - s) = 2 ^ ((bits - s - 1) + 1) := by rw [← hbs]
    have hblock : 2 * b < 2 ^ (bits - s) := by
      rw [hbse, pow_succ]
      omega
    have hblock1 : 2 * b + 1 < 2 ^ (bits - s) := by
      rw [hbse, pow_succ]
      omega
    have hpow2 : 2 ^ (bits - s - 1) * 2 ^ (s + 1) = 2 ^ bits := by
      rw [← pow_add]
      congr 1
      omega
    have hdist : (b + 1) * 2 ^ (s + 1) = b * 2 ^ (s + 1) + 2 ^ (s + 1) := by ring
    have hble : (b + 1) * 2 ^ (s + 1) ≤ 2 ^ (bits - s - 1) * 2 ^ (s + 1) :=
      Nat.mul_le_mul_right _ hb
    have hidxlt : b * 2 ^ (s + 1) + t < 2 ^ bits := by omega
    have hmod : (b * 2 ^ (s + 1) + t) % 2 ^ (s + 1) = t := by
      rw [mul_comm, Nat.mul_add_mod, Nat.mod_eq_of_lt ht]
    simp only [List.range_succ, List.foldl_append, List.foldl_cons, List.foldl_nil]
    simp only [fftStage]
    rw [if_pos hidxlt, hmod, hm2, hsub1]
    rw [show Finset.range (2 ^ (s + 1)) = Finset.range (2 * 2 ^ s) from by rw [hp]]
    rw [sum_range_two_mul, Finset.sum_add_distrib]
    by_cases hts : t < 2 ^ s
    · rw [if_pos hts]
      rw [complex_add_eq, complex_mul_eq, wpow_eq]
      rw [show b * 2 ^ (s + 1) + t = 2 * b * 2 ^ s + t from by rw [hp]; ring]
      rw [show 2 * b * 2 ^ s + t + 2 ^ s = (2 * b + 1) * 2 ^ s + t from by ring]
      rw [ih hs (2 * b) hblock t hts, ih hs (2 * b + 1) hblock1 t hts]
      rw [show bit_reverse (2 * b) (bits - s) = bit_reverse b (bits - s - 1) from by
        rw [hbs]; exact bit_reverse_even b (bits - s - 1)]
      rw [show bit_reverse (2 * b + 1) (bits - s) =
          bit_reverse b (bits - s - 1) + 2 ^ (bits - s - 1) from by
        rw [hbs]; exact bit_reverse_odd b (bits - s - 1)]
      congr 1
      · apply Finset.sum_congr rfl
        intro r _
        rw [show 2 * r * 2 ^ (bits - s - 1) = r * 2 ^ (bits - s) from by
          rw [hbse, pow_succ]; ring]
        rw [show 2 * r * t = 2 * (r * t) from by ring,
          pow_mul (wm (2 ^ (s + 1))) 2 (r * t), wm_sq]
      · rw [Finset.mul_sum]
        apply Finset.sum_congr rfl
        intro r _
        rw [show (2 * r + 1) * 2 ^ (bits - s - 1) =
            r * 2 ^ (bits - s) + 2 ^ (bits - s - 1) from by
          rw [hbse, pow_succ]; ring]
        rw [show (2 * r + 1) * t = 2 * (r * t) + t from by ring,
          pow_add (wm (2 ^ (s + 1))) (2 * (r * t)) t,
          pow_mul (wm (2 ^ (s + 1))) 2 (r * t), wm_sq]
        ring
    · rw [if_neg hts]
      rw [complex_sub_eq, complex_mul_eq, wpow_eq]
      obtain ⟨u, rfl⟩ : ∃ u, t = u + 2 ^ s := ⟨t - 2 ^ s, by omega⟩
      have hu2 : u < 2 ^ s := by omega
      rw [show u + 2 ^ s - 2 ^ s = u from by omega]
      have h1 : b * 2 ^ (s + 1) + (u + 2 ^ s) = 2 * b * 2 ^ s + u + 2 ^ s := by
        rw [hp]; ring
      rw [show b * 2 ^ (s + 1) + (u + 2 ^ s) - 2 ^ s = 2 * b * 2 ^ s + u from by omega]
      rw [show b * 2 ^ (s + 1) + (u + 2 ^ s) = (2 * b + 1) * 2 ^ s + u from by
        rw [hp]; ring]
      rw [ih hs (2 * b) hblock u hu2, ih hs (2 * b + 1) hblock1 u hu2]
      rw [show bit_reverse (2 * b) (bits - s) = bit_reverse b (bits - s - 1) from by
        rw [hbs]; exact bit_reverse_even b (bits - s - 1)]
      rw [show bit_reverse (2 * b + 1) (bits - s) =
          bit_reverse b (bits - s - 1) + 2 ^ (bits - s - 1) from by
        rw [hbs]; exact bit_reverse_odd b (bits - s - 1)]
      rw [sub_eq_add_neg]
      congr 1
      · apply Finset.sum_congr rfl
        intro r _
        rw [show 2 * r * 2 ^ (bits - s - 1) = r * 2 ^ (bits - s) from by
          rw [hbse, pow_succ]; ring]
        rw [show 2 * r * (u + 2 ^ s) = 2 * (r * u) + 2 ^ (s + 1) * r from by
          rw [hp]; ring]
        rw [pow_add (wm (2 ^ (s + 1))) (2 * (r * u)) (2 ^ (s + 1) * r),
          pow_mul (wm (2 ^ (s + 1))) 2 (r * u), wm_sq,
          pow_mul (wm (2 ^ (s + 1))) (2 ^ (s + 1)) r,
          wm_pow_self (2 ^ (s + 1)) (by positivity), one_pow, mul_one]
      · rw [Finset.mul_sum, ← Finset.sum_neg_distrib]
        apply Finset.sum_congr rfl
        intro r _
        rw [show (2 * r + 1) * 2 ^ (bits - s - 1) =
            r * 2 ^ (bits - s) + 2 ^ (bits - s - 1) from by
          rw [hbse, pow_succ]; ring]
        rw [show (2 * r + 1) * (u + 2 ^ s) =
            2 * (r * u) + 2 ^ (s + 1) * r + 2 ^ s + u from by
          rw [hp]; ring]
        rw [pow_add (wm (2 ^ (s + 1))) (2 * (r * u) + 2 ^ (s + 1) * r + 2 ^ s) u,
          pow_add (wm (2 ^ (s + 1))) (2 * (r * u) + 2 ^ (s + 1) * r) (2 ^ s),
          pow_add (wm (2 ^ (s + 1))) (2 * (r * u)) (2 ^ (s + 1) * r),
          pow_mul (wm (2 ^ (s + 1))) 2 (r * u), wm_sq,
          pow_mul (wm (2 ^ (s + 1))) (2 ^ (s + 1)) r,
          wm_pow_self (2 ^ (s + 1)) (by positivity), one_pow, wm_pow_half]
        ring

/-! ## The staged loop computes the DFT; inverse round trip (claim C5) -/

theorem pow2_is_power_of_2 (bits : ℕ) : is_power_of_2 (2 ^ bits) = true := by
  unfold is_power_of_2
  rw [Bool.and_eq_true]
  refine ⟨?_, ?_⟩
  · rw [decide_eq_true_eq]
    positivity
  · have hland : 2 ^ bits &&& (2 ^ bits - 1) = 0 := by
      apply Nat.eq_of_testBit_eq
      intro k
      rw [Nat.testBit_and, Nat.testBit_two_pow, Nat.testBit_two_pow_sub_one,
        Nat.zero_testBit]
      by_cases h : bits = k
      · subst h
        simp
      · simp [h]
    rw [hland]
    rfl

theorem complex_create_ofReal (r : ℝ) : complex_create r 0.0 = (r : ℂ) := by
  apply Complex.ext <;> simp [complex_create] <;> norm_num

theorem complex_create_conj (c : ℂ) :
    complex_create c.re (-c.im) = (starRingEnd ℂ) c := by
  apply Complex.ext <;> simp [complex_create]

/-- The staged butterfly loop on the bit-reverse-permuted input computes
the textbook DFT at every in-range index. -/
theorem fftRun_dft (bits : ℕ) (y : ℕ → ℂ) (k : ℕ) (hk : k < 2 ^ bits) :
    fftRun bits (fun j => if j < 2 ^ bits then y (bit_reverse j bits) else 0) k =
      dft (2 ^ bits) y k := by
  have h := fft_stages_spec bits y bits le_rfl 0 (by simp) k hk
  unfold fftRun dft
  simpa [bit_reverse] using h

/-- Orthogonality of the twiddle rows: the geometric sum over
`wm^j * conj wm^i` is `n` on the diagonal and 0 off it. -/
theorem dft_orthogonal (n : ℕ) (hn : n ≠ 0) (i j : ℕ) (hi : i < n) (hj : j < n) :
    ∑ r in Finset.range n, (wm n ^ j * ((starRingEnd ℂ) (wm n)) ^ i) ^ r =
      if j = i then (n : ℂ) else 0 := by
  by_cases hij : j = i
  · subst hij
    rw [if_pos rfl, ← mul_pow, wm_mul_conj, one_pow]
    simp
  · rw [if_neg hij]
    apply sum_pow_eq_zero
    · rcases lt_or_gt_of_ne hij with h | h
      · obtain ⟨d, rfl⟩ : ∃ d, i = j + d := ⟨i - j, by omega⟩
        intro hcon
        apply wm_pow_ne_one n d hn (by omega) (by omega)
        have h1 : wm n ^ j * ((starRingEnd ℂ) (wm n)) ^ (j + d) =
            (wm n * (starRingEnd ℂ) (wm n)) ^ j * ((starRingEnd ℂ) (wm n)) ^ d := by
          rw [pow_add, mul_pow]
          ring
        rw [h1, wm_mul_conj, one_pow, one_mul] at hcon
        have h2 := congrArg (starRingEnd ℂ) hcon
        rw [← map_pow, Complex.conj_conj, map_one] at h2
        exact h2
      · obtain ⟨d, rfl⟩ : ∃ d, j = i + d := ⟨j - i, by omega⟩
        intro hcon
        apply wm_pow_ne_one n d hn (by omega) (by omega)
        have h1 : wm n ^ (i + d) * ((starRingEnd ℂ) (wm n)) ^ i =
            (wm n * (starRingEnd ℂ) (wm n)) ^ i * wm n ^ d := by
          rw [pow_add, mul_pow]
          ring
        rw [h1, wm_mul_conj, one_pow, one_mul] at hcon
        exact hcon
    · have hz : wm n ^ n = 1 := wm_pow_self n hn
      have hc : ((starRingEnd ℂ) (wm n)) ^ n = 1 := by
        rw [← map_pow, hz, map_one]
      rw [mul_pow, ← pow_mul, ← pow_mul, mul_comm j n, mul_comm i n,
        pow_mul, pow_mul, hz, hc, one_pow, one_pow, one_mul]

/-- The exact inversion identity behind C5: for every power-of-two size,
running `fft_inverse` on the output of `fft_compute` reproduces the input
sample (as a complex number with zero imaginary part), exactly. -/
theorem fft_roundtrip_exact (bits : ℕ) (x : ℕ → ℝ) :
    ∃ X Y, fft_compute x (2 ^ bits) = some X ∧
      fft_inverse X (2 ^ bits) = some Y ∧
      ∀ i, i < 2 ^ bits → Y i = ((x i : ℝ) : ℂ) := by
  have hpow : is_power_of_2 (2 ^ bits) = true := pow2_is_power_of_2 bits
  have hlog : Nat.log2 (2 ^ bits) = bits := Nat.log2_two_pow
  have hn0 : (2:ℕ) ^ bits ≠ 0 := by positivity
  have hnC : (((2:ℕ) ^ bits : ℕ) : ℂ) ≠ 0 := Nat.cast_ne_zero.mpr hn0
  set xc : ℕ → ℂ := fun j => ((x j : ℝ) : ℂ) with hxc
  set X : ℕ → ℂ := fftRun bits
    (fun j => if j < 2 ^ bits then complex_create (x (bit_reverse j bits)) 0.0 else 0)
    with hXdef
  have hX : fft_compute x (2 ^ bits) = some X := by
    unfold fft_compute
    rw [hpow, hlog]
    simp
  have hXfun : (fun j => if j < 2 ^ bits then
      complex_create (x (bit_reverse j bits)) 0.0 else 0) =
      (fun j => if j < 2 ^ bits then xc (bit_reverse j bits) else 0) := by
    funext j
    rw [complex_create_ofReal]
  have hXval : ∀ r, r < 2 ^ bits → X r = dft (2 ^ bits) xc r := by
    intro r hr
    rw [hXdef, hXfun]
    exact fftRun_dft bits xc r hr
  set run : ℕ → ℂ := fftRun bits
    (fun j => if j < 2 ^ bits then
      complex_create ((X (bit_reverse j bits)).re) (-((X (bit_reverse j bits)).im))
      else 0) with hrundef
  set Y : ℕ → ℂ := fun i => if i < 2 ^ bits then
      complex_create ((run i).re * (1.0 / (2 ^ bits : ℕ)))
        ((run i).im * (-(1.0 / (2 ^ bits : ℕ))))
    else run i with hYdef
  have hY : fft_inverse X (2 ^ bits) = some Y := by
    unfold fft_inverse
    rw [hpow, hlog, hYdef, hrundef]
    simp
  have hrunfun : (fun j => if j < 2 ^ bits then
      complex_create ((X (bit_reverse j bits)).re) (-((X (bit_reverse j bits)).im))
      else 0) =
      (fun j => if j < 2 ^ bits then
        (fun r => (starRingEnd ℂ) (X r)) (bit_reverse j bits) else 0) := by
    funext j
    rw [complex_create_conj]
  have hrunval : ∀ k, k < 2 ^ bits →
      run k = dft (2 ^ bits) (fun r => (starRingEnd ℂ) (X r)) k := by
    intro k hk
    rw [hrundef, hrunfun]
    exact fftRun_dft bits (fun r => (starRingEnd ℂ) (X r)) k hk
  refine ⟨X, Y, hX, hY, ?_⟩
  intro i hi
  have hconj : (starRingEnd ℂ) (run i) = xc i * ((2 ^ bits : ℕ) : ℂ) := by
    rw [hrunval i hi]
    unfold dft
    rw [map_sum]
    have hterm : ∀ r ∈ Finset.range (2 ^ bits),
        (starRingEnd ℂ) ((starRingEnd ℂ) (X r) * wm (2 ^ bits) ^ (r * i)) =
          (∑ j in Finset.range (2 ^ bits), xc j * wm (2 ^ bits) ^ (j * r)) *
            ((starRingEnd ℂ) (wm (2 ^ bits))) ^ (r * i) := by
      intro r hr
      rw [map_mul, Complex.conj_conj, map_pow]
      rw [hXval r (Finset.mem_range.mp hr)]
      rfl
    rw [Finset.sum_congr rfl hterm]
    have hpush : ∀ r ∈ Finset.range (2 ^ bits),
        (∑ j in Finset.range (2 ^ bits), xc j * wm (2 ^ bits) ^ (j * r)) *
          ((starRingEnd ℂ) (wm (2 ^ bits))) ^ (r * i) =
        ∑ j in Finset.range (2 ^ bits),
          xc j * (wm (2 ^ bits) ^ j * ((starRingEnd ℂ) (wm (2 ^ bits))) ^ i) ^ r := by
      intro r hr
      rw [Finset.sum_mul]
      apply Finset.sum_congr rfl
      intro j hj
      rw [mul_pow, ← pow_mul, ← pow_mul, mul_comm i r]
      ring
    rw [Finset.sum_congr rfl hpush, Finset.sum_comm]
    have hinner : ∀ j ∈ Finset.range (2 ^ bits),
        (∑ r in Finset.range (2 ^ bits),
          xc j * (wm (2 ^ bits) ^ j * ((starRingEnd ℂ) (wm (2 ^ bits))) ^ i) ^ r) =
        if j = i then xc j * ((2 ^ bits : ℕ) : ℂ) else 0 := by
      intro j hj
      rw [← Finset.mul_sum,
        dft_orthogonal (2 ^ bits) hn0 i j hi (Finset.mem_range.mp hj)]
      by_cases h : j = i
      · rw [if_pos h, if_pos h]
      · rw [if_neg h, if_neg h, mul_zero]
    rw [Finset.sum_congr rfl hinner, Finset.sum_ite_eq', if_pos (Finset.mem_range.mpr hi)]
  have hYi : Y i = xc i := by
    have hYval : Y i = complex_create ((run i).re * (1.0 / ((2 ^ bits : ℕ) : ℝ)))
        ((run i).im * (-(1.0 / ((2 ^ bits : ℕ) : ℝ)))) := by
      rw [hYdef]
      simp only [if_pos hi]
    have hscale : ∀ (a : ℝ) (c : ℂ), complex_create (c.re * a) (c.im * (-a)) =
        ((a : ℝ) : ℂ) * (starRingEnd ℂ) c := by
      intro a c
      apply Complex.ext <;>
        simp only [complex_create, Complex.mul_re, Complex.mul_im,
          Complex.ofReal_re, Complex.ofReal_im, Complex.conj_re,
          Complex.conj_im] <;>
      ring
    rw [hYval, hscale (1.0 / ((2 ^ bits : ℕ) : ℝ)) (run i), hconj]
    have hnR : (((2:ℕ) ^ bits : ℕ) : ℝ) ≠ 0 := Nat.cast_ne_zero.mpr hn0
    push_cast
    field_simp
    norm_num
  exact hYi

/-- C5: for every real buffer of power-of-two length, applying
`fft_inverse` to the result of `fft_compute` reconstructs the buffer: each
output sample equals the corresponding input sample with zero imaginary
part — exactly in the real-number model, hence within the stated 1e-3
per-sample tolerance. -/
theorem fft_roundtrip (n bits : ℕ) (hn : n = 2 ^ bits) (x : ℕ → ℝ) (i : ℕ)
    (hi : i < n) :
    ∃ Y, (fft_compute x n).bind (fun X => fft_inverse X n) = some Y ∧
      Y i = ((x i : ℝ) : ℂ) ∧ Complex.abs (Y i - ((x i : ℝ) : ℂ)) < 1e-3 := by
  subst hn
  obtain ⟨X, Y, hX, hY, hval⟩ := fft_roundtrip_exact bits x
  refine ⟨Y, ?_, hval i hi, ?_⟩
  · rw [hX]
    exact hY
  · rw [hval i hi]
    simp
    norm_num

/-- C5 witness: the length-1 constant buffer with value 2 survives the
round trip at index 0. -/
theorem fft_roundtrip_witness :
    (1 : ℕ) = 2 ^ 0 ∧ (0 : ℕ) < 1 ∧
      ∃ Y, (fft_compute (fun _ => (2 : ℝ)) 1).bind (fun X => fft_inverse X 1) =
          some Y ∧
        Y 0 = (((2 : ℝ) : ℝ) : ℂ) ∧
        Complex.abs (Y 0 - (((2 : ℝ) : ℝ) : ℂ)) < 1e-3 :=
  ⟨rfl, by norm_num, fft_roundtrip 1 0 rfl (fun _ => 2) 0 (by norm_num)⟩

/-! ## A concrete non-degenerate feature extraction

A length-9 buffer with a single unit spike at index 4: the Hanning window
is exactly 1 there (`cos(2*pi*4/8) = cos(pi) = -1`), the padded transform
size is 16, and all the spike energy lands in the 16 Hz bin, inside the
beta band.  This exercises the ratio-normalization branch of
`extract_features` on explicitly computed FFT band powers. -/

theorem wm_normSq (n : ℕ) : Complex.normSq (wm n) = 1 := by
  have hpyth := Real.sin_sq_add_cos_sq (-2 * Real.pi / n)
  simp only [wm, complex_create, Complex.normSq_mk]
  nlinarith [hpyth]

theorem delta_window :
    apply_hanning_window
        (fun i => if i < 9 then (if i = 4 then (1 : ℝ) else 0) else 0) 9 =
      fun i => if i = 4 then (1 : ℝ) else 0 := by
  funext i
  simp only [apply_hanning_window]
  by_cases hi4 : i = 4
  · subst hi4
    norm_num
    rw [show (2 * Real.pi * 4 / 8 : ℝ) = Real.pi from by ring, Real.cos_pi]
    norm_num
  · by_cases hi9 : i < 9
    · rw [if_pos hi9, if_pos hi9, if_neg hi4]
      ring
    · rw [if_neg hi9, if_neg hi9, if_neg hi4]

theorem delta_fft :
    fft_compute (fun i => if i = 4 then (1 : ℝ) else 0) 16 =
      some (fftRun 4 (fun j => if j < 16 then
        complex_create (if bit_reverse j 4 = 4 then (1 : ℝ) else 0) 0.0 else 0)) := by
  have hpow : is_power_of_2 16 = true := by decide
  have hlog : Nat.log2 16 = 4 := by
    rw [show (16 : ℕ) = 2 ^ 4 from by norm_num]
    exact Nat.log2_two_pow
  unfold fft_compute
  rw [hpow, hlog]
  simp

theorem delta_fft_value (k : ℕ) (hk : k < 16) :
    fftRun 4 (fun j => if j < 16 then
        complex_create (if bit_reverse j 4 = 4 then (1 : ℝ) else 0) 0.0 else 0) k =
      wm 16 ^ (4 * k) := by
  have hfun : (fun j => if j < 16 then
      complex_create (if bit_reverse j 4 = 4 then (1 : ℝ) else 0) 0.0 else 0) =
      (fun j => if j < 2 ^ 4 then
        (fun r => (((if r = 4 then (1 : ℝ) else 0) : ℝ) : ℂ)) (bit_reverse j 4)
        else 0) := by
    funext j
    rw [complex_create_ofReal]
    norm_num
  rw [hfun]
  rw [fftRun_dft 4 (fun r => (((if r = 4 then (1 : ℝ) else 0) : ℝ) : ℂ)) k
    (by norm_num at hk ⊢; omega)]
  unfold dft
  rw [Finset.sum_eq_single 4]
  · norm_num
  · intro b _ hb
    simp [hb]
  · intro hcon
    exact absurd (by norm_num : (4 : ℕ) ∈ Finset.range (2 ^ 4)) hcon

theorem delta_band_power :
    calculate_band_power (fun i => if i = 4 then (1 : ℝ) else 0) 9
        ALPHA_LOW_FREQ ALPHA_HIGH_FREQ = 0 ∧
      calculate_band_power (fun i => if i = 4 then (1 : ℝ) else 0) 9
        BETA_LOW_FREQ BETA_HIGH_FREQ = 1 / 8 := by
  have h16 : next_power_of_2 9 = 16 := by decide
  have hmag : ∀ i : ℕ, complex_magnitude_squared (wm 16 ^ (4 * i)) = 1 := by
    intro i
    rw [complex_magnitude_squared_eq, map_pow, wm_normSq, one_pow]
  constructor <;>
  · unfold calculate_band_power
    simp only [calculate_band_power_fft, h16, delta_window, delta_fft]
    simp only [calculate_band_power_psd, calculate_power_spectrum]
    rw [show (16 : ℕ) / 2 + 1 = 9 from by norm_num]
    rw [Finset.sum_range_succ, Finset.sum_range_succ, Finset.sum_range_succ,
      Finset.sum_range_succ, Finset.sum_range_succ, Finset.sum_range_succ,
      Finset.sum_range_succ, Finset.sum_range_succ, Finset.sum_range_succ,
      Finset.sum_range_zero]
    rw [delta_fft_value 0 (by norm_num), delta_fft_value 1 (by norm_num),
      delta_fft_value 2 (by norm_num), delta_fft_value 3 (by norm_num),
      delta_fft_value 4 (by norm_num), delta_fft_value 5 (by norm_num),
      delta_fft_value 6 (by norm_num), delta_fft_value 7 (by norm_num),
      delta_fft_value 8 (by norm_num)]
    simp only [hmag]
    norm_num [ALPHA_LOW_FREQ, ALPHA_HIGH_FREQ, BETA_LOW_FREQ, BETA_HIGH_FREQ,
      SAMPLING_RATE]

/-- C3 witness: the all-zero two-sample buffer is non-empty with combined
band power 0 and both extracted ratios exactly 0.5 (degenerate branch);
the length-9 unit-spike buffer has combined raw band power 1/8 > 0.01 and
its extracted ratios sum to 1 within 1e-3 (non-degenerate branch). -/
theorem extract_features_normalization_witness :
    ((2 : ℕ) ≠ 0 ∧ (∀ i, i < 2 → (fun _ => (0 : ℝ)) i = 0) ∧
      ((extract_features (fun _ => 0) 2 ⟨0, 0, 0, 0, 0, 0⟩).alpha_power = 0.5 ∧
        (extract_features (fun _ => 0) 2 ⟨0, 0, 0, 0, 0, 0⟩).beta_power = 0.5)) ∧
    ((9 : ℕ) ≠ 0 ∧
      calculate_band_power (fun i => if i = 4 then (1 : ℝ) else 0) 9
          ALPHA_LOW_FREQ ALPHA_HIGH_FREQ +
        calculate_band_power (fun i => if i = 4 then (1 : ℝ) else 0) 9
          BETA_LOW_FREQ BETA_HIGH_FREQ > 0.01 ∧
      |(extract_features (fun i => if i = 4 then (1 : ℝ) else 0) 9
            ⟨0, 0, 0, 0, 0, 0⟩).alpha_power +
          (extract_features (fun i => if i = 4 then (1 : ℝ) else 0) 9
            ⟨0, 0, 0, 0, 0, 0⟩).beta_power - 1| ≤ 1e-3) := by
  obtain ⟨hba, hbb⟩ := delta_band_power
  have htot : calculate_band_power (fun i => if i = 4 then (1 : ℝ) else 0) 9
      ALPHA_LOW_FREQ ALPHA_HIGH_FREQ +
      calculate_band_power (fun i => if i = 4 then (1 : ℝ) else 0) 9
        BETA_LOW_FREQ BETA_HIGH_FREQ > 0.01 := by
    rw [hba, hbb]
    norm_num
  refine ⟨⟨by norm_num, fun _ _ => rfl, ?_⟩, by norm_num, htot, ?_⟩
  · exact (extract_features_normalization (fun _ => 0) 2 (by norm_num)
      ⟨0, 0, 0, 0, 0, 0⟩).2 (fun _ _ => rfl)
  · exact (extract_features_normalization (fun i => if i = 4 then (1 : ℝ) else 0) 9
      (by norm_num) ⟨0, 0, 0, 0, 0, 0⟩).1 htot

end BCI
